import Mathlib

/-!
Shallow embedding of the experiment allocation and statistical-inference
engine of the agent-prompt-registry repository
(src/agent_prompt_registry/registry.py, src/agent_prompt_registry/models.py,
src/agent_prompt_registry/experiment.py).

The SQLite tables touched by the claims (`experiments`, `experiment_outcomes`)
are modelled as in-memory lists of rows; a raised Python exception is modelled
as `Except.error` (the transaction is never committed, so the state is
unchanged).  Python float arithmetic is modelled by exact real arithmetic.
-/

/-- One row of the `experiments` table.  `name` is the PRIMARY KEY.
`variants` is the JSON column: an insertion-ordered mapping
variant name ↦ (content, weight). Timestamp columns are omitted: no claim
reads them. -/
structure ExperimentRow where
  name : String
  prompt_name : String
  variants : List (String × String × Nat)
  success_metric : String
  status : String
  deriving Repr, DecidableEq

/-- One row of the `experiment_outcomes` table. `success` is stored as the
integer 0 or 1 (`1 if success else 0`); `metrics` is the serialized optional
metrics mapping. The timestamp column is omitted: no claim reads it. -/
structure OutcomeRow where
  experiment_name : String
  variant : String
  success : Nat
  metrics : Option (List (String × ℚ))
  deriving Repr, DecidableEq

/-- The registry database state restricted to the two tables the claims
touch.  (The `prompts` table column `active_experiment` is also updated by
`create_experiment`, but no claim depends on it, so it is not modelled.) -/
structure RegistryState where
  experiments : List ExperimentRow
  outcomes : List OutcomeRow
  deriving Repr, DecidableEq

/-- Python exceptions raised by the registry code paths under study. -/
inductive RegError where
  | valueError (msg : String)
  | keyError
  | integrityError
  deriving Repr, DecidableEq

/-- The default traffic split built by `create_experiment` when
`traffic_split is None`: `weight = 100 // len(variants)` for every variant
(Python `//` is truncating division on naturals, as is `/` on `Nat`). -/
def defaultSplit (variants : List (String × String)) : List (String × Nat) :=
  variants.map (fun kv => (kv.1, 100 / variants.length))

/-- Weight looked up in a traffic split (`traffic_split[k]`); total as a
function, the KeyError raised by a missing key is modelled separately in
`create_experiment`. -/
def lookupWeight (split : List (String × Nat)) (k : String) : Nat :=
  ((split.find? (fun p => p.1 == k)).map (fun p => p.2)).getD 0

/-- `PromptRegistry.create_experiment` (registry.py lines 331-394).
Order of effects follows the source: the default split is computed first,
then the sum-to-100 check raises `ValueError`, then the
`experiment_variants` dict comprehension raises `KeyError` on a variant
missing from the split, then the SQL `INSERT` raises `IntegrityError` when
an experiment named `name ++ "-experiment"` already exists (that string is
the PRIMARY KEY).  Only after a successful insert is the transaction
committed, so every error leaves the database unchanged. -/
def create_experiment (st : RegistryState) (name : String)
    (variants : List (String × String)) (traffic_split : Option (List (String × Nat)))
    (success_metric : String) : Except RegError (RegistryState × ExperimentRow) :=
  let split := traffic_split.getD (defaultSplit variants)
  if (split.map (fun p => p.2)).sum ≠ 100 then
    .error (.valueError "Traffic split must sum to 100")
  else if variants.any (fun kv => (split.find? (fun p => p.1 == kv.1)).isNone) then
    .error .keyError
  else
    let row : ExperimentRow :=
      { name := name ++ "-experiment"
        prompt_name := name
        variants := variants.map (fun kv => (kv.1, kv.2, lookupWeight split kv.1))
        success_metric := success_metric
        status := "running" }
    if st.experiments.any (fun r => r.name == row.name) then
      .error .integrityError
    else
      .ok ({ st with experiments := st.experiments ++ [row] }, row)

/-- `PromptRegistry.record_outcome` (registry.py lines 396-433): find the
first running experiment for the prompt (`fetchone` of the SELECT); raise
`ValueError` if there is none; otherwise append an outcome row for the
given variant name (no membership check against the experiment variants). -/
def record_outcome (st : RegistryState) (prompt_name variant : String)
    (success : Bool) (metrics : Option (List (String × ℚ))) :
    Except RegError RegistryState :=
  match st.experiments.find?
      (fun r => r.prompt_name == prompt_name && r.status == "running") with
  | none => .error (.valueError ("No active experiment for prompt " ++ prompt_name))
  | some row =>
      .ok { st with
            outcomes := st.outcomes ++
              [⟨row.name, variant, if success then 1 else 0, metrics⟩] }

/-- Outcome rows of one experiment, in table (insertion) order. -/
def outcomesFor (outs : List OutcomeRow) (ename : String) : List OutcomeRow :=
  outs.filter (fun o => o.experiment_name == ename)

/-- `COUNT(*)` of the outcome rows of one variant of one experiment. -/
def trialsOf (outs : List OutcomeRow) (ename v : String) : Nat :=
  ((outcomesFor outs ename).filter (fun o => o.variant == v)).length

/-- `SUM(success)` over the outcome rows of one variant of one experiment. -/
def successesOf (outs : List OutcomeRow) (ename v : String) : Nat :=
  (((outcomesFor outs ename).filter (fun o => o.variant == v)).map
    (fun o => o.success)).sum

/-- Distinct elements of a list keeping the first occurrence of each. -/
def firstSeenAux : List String → List String → List String
  | [], _ => []
  | x :: xs, seen =>
      if seen.contains x then firstSeenAux xs seen
      else x :: firstSeenAux xs (x :: seen)

/-- Distinct variant names in first-seen order. -/
def firstSeen (l : List String) : List String := firstSeenAux l []

/-- The grouped rows produced by
`SELECT variant, SUM(success), COUNT(*), AVG(success) ... GROUP BY variant`:
one row `(variant, successes, trials, success_rate)` per distinct variant.
SQLite computes `AVG(success)` as `SUM(success)/COUNT(*)`; it is modelled
exactly as a rational.  Group output order is modelled as first-seen order
of the variants (SQLite does not specify it; none of the settled claims
depends on which fixed order is used). -/
def groupRows (outs : List OutcomeRow) (ename : String) :
    List (String × Nat × Nat × ℚ) :=
  (firstSeen ((outcomesFor outs ename).map (fun o => o.variant))).map
    (fun v => (v, successesOf outs ename v, trialsOf outs ename v,
               (successesOf outs ename v : ℚ) / (trialsOf outs ename v : ℚ)))

/-- Round a rational to 4 decimal places with round-half-to-even, the tie
rule of Python `round`. -/
def round4 (q : ℚ) : ℚ :=
  let s := q * 10000
  let f := Int.floor s
  let r := s - f
  (if r < 1/2 then (f : ℚ)
   else if 1/2 < r then (f : ℚ) + 1
   else if f % 2 = 0 then (f : ℚ) else (f : ℚ) + 1) / 10000

/-- Per-variant entry of the results dictionary
(`{"trials": ..., "successes": ..., "success_rate": round(rate, 4)}`). -/
structure VariantStats where
  trials : Nat
  successes : Nat
  success_rate : ℚ
  deriving Repr, DecidableEq

/-- Return value of `get_experiment_results`: either the literal empty dict
`{}` (no running experiment) or a dict of per-variant entries plus the
`winner` and `total_trials` keys. -/
inductive ResultsDict where
  | empty
  | results (entries : List (String × VariantStats)) (winner : Option String)
      (total_trials : Nat)
  deriving Repr, DecidableEq

/-- The winner-selection loop of `get_experiment_results` (registry.py
lines 470-482): starting from `best_variant = None`, `best_rate = 0`,
update both whenever `success_rate > best_rate` (strict). -/
def bestLoop : List (String × Nat × Nat × ℚ) → Option String → ℚ → Option String × ℚ
  | [], best, brate => (best, brate)
  | g :: rest, best, brate =>
      if brate < g.2.2.2 then bestLoop rest (some g.1) g.2.2.2
      else bestLoop rest best brate

/-- `PromptRegistry.get_experiment_results` (registry.py lines 435-487):
returns `{}` when no experiment for the prompt is running; otherwise builds
per-variant entries from the grouped outcome rows, adds the `winner` chosen
by `bestLoop`, and `total_trials` as the sum of the trials of the variant
entries (the `isinstance` guard in the source excludes exactly the
non-variant keys). -/
def get_experiment_results (st : RegistryState) (prompt_name : String) :
    ResultsDict :=
  match st.experiments.find?
      (fun r => r.prompt_name == prompt_name && r.status == "running") with
  | none => .empty
  | some row =>
      let groups := groupRows st.outcomes row.name
      let entries := groups.map
        (fun g => (g.1, VariantStats.mk g.2.2.1 g.2.1 (round4 g.2.2.2)))
      .results entries (bestLoop groups none 0).1
        (entries.map (fun e => e.2.trials)).sum

/-- C1: the claim fails on the code and the code contradicts its own
"Equal split" intent: with 3 variants and `traffic_split` omitted,
`create_experiment` assigns every variant `100 / 3 = 33`, the weights sum
to 99, and the call raises `ValueError` instead of succeeding with weights
summing to 100. -/
theorem create_experiment_three_variants_fails :
    defaultSplit [("a", "ca"), ("b", "cb"), ("c", "cc")]
        = [("a", 33), ("b", 33), ("c", 33)] ∧
    create_experiment ⟨[], []⟩ "p" [("a", "ca"), ("b", "cb"), ("c", "cc")]
        none "success"
      = .error (.valueError "Traffic split must sum to 100") := by
  exact ⟨rfl, rfl⟩

/-- C2 counterexample: `record_outcome` does not fail when the named
variant is not one of the running experiment variants; it appends the
outcome row for the unknown name "zzz" and succeeds. -/
theorem record_outcome_unknown_variant_ok :
    record_outcome
        ⟨[⟨"p-experiment", "p", [("a", "ca", 50), ("b", "cb", 50)], "success",
           "running"⟩], []⟩
        "p" "zzz" true none
      = .ok ⟨[⟨"p-experiment", "p", [("a", "ca", 50), ("b", "cb", 50)], "success",
               "running"⟩],
             [⟨"p-experiment", "zzz", 1, none⟩]⟩ ∧
    "zzz" ∉ (([("a", "ca", 50), ("b", "cb", 50)] :
        List (String × String × Nat)).map (fun v => v.1)) := by
  exact ⟨rfl, by decide⟩

/-- C4 counterexample: with one recorded outcome (a failure) for the running
experiment, `get_experiment_results` designates no winner (`None`), even
though at least one outcome exists: the loop only updates the winner on a
success rate strictly greater than 0. -/
theorem results_all_failures_no_winner :
    get_experiment_results
        ⟨[⟨"p-experiment", "p", [("a", "ca", 100)], "success", "running"⟩],
         [⟨"p-experiment", "a", 0, none⟩]⟩ "p"
      = .results [("a", ⟨1, 0, 0⟩)] none 1 := by
  norm_num [get_experiment_results, groupRows, outcomesFor, trialsOf, successesOf,
    firstSeen, firstSeenAux, bestLoop, round4]

/-- C5 counterexample: for a template with no running experiment,
`get_experiment_results` returns the empty dictionary as an ordinary value;
no error condition is surfaced to the caller. -/
theorem results_no_experiment_returns_empty :
    get_experiment_results ⟨[], []⟩ "p" = .empty := by
  rfl

/-- C2 (amended): `record_outcome` fails with `ValueError` exactly when no
experiment for the template is in running status; otherwise it appends the
outcome row for the given variant name (with no check that the variant
belongs to the experiment), leaving the experiments table unchanged, and
the derived trial count of that variant increases by one and its derived
success count by one exactly when `success` is true. -/
theorem record_outcome_spec (st : RegistryState) (pn v : String) (succ : Bool)
    (m : Option (List (String × ℚ))) :
    (st.experiments.find? (fun r => r.prompt_name == pn && r.status == "running")
        = none →
      record_outcome st pn v succ m
        = .error (.valueError ("No active experiment for prompt " ++ pn))) ∧
    (∀ row,
      st.experiments.find? (fun r => r.prompt_name == pn && r.status == "running")
          = some row →
      record_outcome st pn v succ m
          = .ok ⟨st.experiments,
                 st.outcomes ++ [⟨row.name, v, if succ then 1 else 0, m⟩]⟩ ∧
      trialsOf (st.outcomes ++ [⟨row.name, v, if succ then 1 else 0, m⟩]) row.name v
          = trialsOf st.outcomes row.name v + 1 ∧
      successesOf (st.outcomes ++ [⟨row.name, v, if succ then 1 else 0, m⟩]) row.name v
          = successesOf st.outcomes row.name v + (if succ then 1 else 0)) := by
  constructor
  · intro h
    simp only [record_outcome, h]
  · intro row h
    refine ⟨by simp only [record_outcome, h], ?_, ?_⟩
    · simp [trialsOf, outcomesFor, List.filter_append]
    · simp [successesOf, outcomesFor, List.filter_append]

/-- C2 witness: applying the amended theorem at a concrete state with a
running experiment. -/
theorem record_outcome_spec_wit :
    record_outcome
        ⟨[⟨"p-experiment", "p", [("a", "ca", 100)], "success", "running"⟩], []⟩
        "p" "a" true none
      = .ok ⟨[⟨"p-experiment", "p", [("a", "ca", 100)], "success", "running"⟩],
             [⟨"p-experiment", "a", 1, none⟩]⟩ := by
  exact ((record_outcome_spec
    ⟨[⟨"p-experiment", "p", [("a", "ca", 100)], "success", "running"⟩], []⟩
    "p" "a" true none).2
    ⟨"p-experiment", "p", [("a", "ca", 100)], "success", "running"⟩ rfl).1

/-- C5 (amended): for a template with no experiment in running status,
`get_experiment_results` silently returns the empty dictionary; the
condition is absorbed into a default value instead of being surfaced as a
catchable error. -/
theorem results_no_running_empty (st : RegistryState) (pn : String)
    (h : st.experiments.find? (fun r => r.prompt_name == pn && r.status == "running")
      = none) :
    get_experiment_results st pn = .empty := by
  simp only [get_experiment_results, h]

/-- C5 witness: a template whose only experiment is paused. -/
theorem results_no_running_empty_wit :
    get_experiment_results
        ⟨[⟨"p-experiment", "p", [("a", "ca", 100)], "success", "paused"⟩], []⟩ "p"
      = .empty := by
  exact results_no_running_empty
    ⟨[⟨"p-experiment", "p", [("a", "ca", 100)], "success", "paused"⟩], []⟩ "p" rfl

/-- C3: when some experiment for the template is already running,
`create_experiment` fails with an error (the derived experiment name
collides with the PRIMARY KEY), leaving the table unchanged; moreover under
the invariant that experiment names are pairwise distinct and derived from
the template name, each template has at most one experiment row at all
(hence at most one running), and a successful `create_experiment` preserves
the invariant. -/
theorem create_experiment_at_most_one_running (st : RegistryState) (name : String)
    (variants : List (String × String)) (split : Option (List (String × Nat)))
    (metric : String)
    (hnames : st.experiments.Pairwise (fun r r' => r.name ≠ r'.name))
    (hder : ∀ r ∈ st.experiments, r.name = r.prompt_name ++ "-experiment") :
    ((∃ r ∈ st.experiments, r.prompt_name = name ∧ r.status = "running") →
      ∃ e, create_experiment st name variants split metric = .error e) ∧
    (∀ r ∈ st.experiments, ∀ r' ∈ st.experiments,
      r.prompt_name = name → r'.prompt_name = name → r = r') ∧
    (∀ st' row, create_experiment st name variants split metric = .ok (st', row) →
      st'.experiments.Pairwise (fun r r' => r.name ≠ r'.name) ∧
      ∀ r ∈ st'.experiments, r.name = r.prompt_name ++ "-experiment") := by
  refine ⟨?_, ?_, ?_⟩
  · rintro ⟨r, hr, hpn, _⟩
    simp only [create_experiment]
    split_ifs with h1 h2 h3
    · exact ⟨_, rfl⟩
    · exact ⟨_, rfl⟩
    · exact ⟨_, rfl⟩
    · exfalso
      apply h3
      rw [List.any_eq_true]
      refine ⟨r, hr, ?_⟩
      rw [beq_iff_eq, hder r hr, hpn]
  · intro r hr r' hr' hn hn'
    by_cases hrr : r = r'
    · exact hrr
    · exfalso
      exact hnames.forall (fun a b hab => hab.symm) hr hr' hrr
        (by rw [hder r hr, hder r' hr', hn, hn'])
  · intro st' row hok
    simp only [create_experiment] at hok
    split_ifs at hok with h1 h2 h3
    rw [Except.ok.injEq, Prod.mk.injEq] at hok
    obtain ⟨hst', hrow⟩ := hok
    have hmem : ∀ r ∈ st.experiments, r.name ≠ name ++ "-experiment" := by
      intro r hr hcontra
      apply h3
      rw [List.any_eq_true]
      exact ⟨r, hr, by rw [beq_iff_eq]; exact hcontra⟩
    subst hst'
    subst hrow
    constructor
    · simp only [List.pairwise_append, List.pairwise_singleton, and_true, true_and]
      refine ⟨hnames, ?_⟩
      intro a ha b hb
      simp only [List.mem_singleton] at hb
      subst hb
      exact hmem a ha
    · intro r hr
      simp only [List.mem_append, List.mem_singleton] at hr
      rcases hr with h | h
      · exact hder r h
      · subst h
        rfl

/-- C3 witness: a template with a running experiment rejects a second
experiment. -/
theorem create_experiment_at_most_one_running_wit :
    ∃ e, create_experiment
        ⟨[⟨"p-experiment", "p", [("a", "ca", 100)], "success", "running"⟩], []⟩
        "p" [("x", "cx"), ("y", "cy")] none "success" = .error e := by
  exact (create_experiment_at_most_one_running
    ⟨[⟨"p-experiment", "p", [("a", "ca", 100)], "success", "running"⟩], []⟩
    "p" [("x", "cx"), ("y", "cy")] none "success"
    (List.pairwise_singleton _ _) (by decide)).1
    ⟨⟨"p-experiment", "p", [("a", "ca", 100)], "success", "running"⟩,
      List.mem_singleton.mpr rfl, rfl, rfl⟩

/-- The weighted-selection loop of `get_variant` (registry.py lines
233-239): walk the variants in insertion order, accumulate weight in
`cumulative`, and select the first variant with `rand <= cumulative`. -/
def selectLoop : List (String × Nat) → Nat → Nat → Option String
  | [], _, _ => none
  | (n, w) :: rest, rand, cum =>
      if rand ≤ cum + w then some n else selectLoop rest rand (cum + w)

/-- The weighted random selection of `get_variant` (registry.py lines
229-239), as a function of the variants mapping of the running experiment
(insertion order) and the draw `rand = random.randint(1, total_weight)`. -/
def select_variant (variants : List (String × String × Nat)) (rand : Nat) :
    Option String :=
  selectLoop (variants.map (fun v => (v.1, v.2.2))) rand 0

/-- A selected variant has positive weight: the loop only stops at a
variant whose weight moved the cumulative total past the draw. -/
theorem selectLoop_mem_pos (ws : List (String × Nat)) (rand : Nat) :
    ∀ cum, cum < rand → ∀ v, selectLoop ws rand cum = some v →
      ∃ w, 0 < w ∧ (v, w) ∈ ws := by
  induction ws with
  | nil => intro cum _ v hv; exact Option.noConfusion hv
  | cons hd tl ih =>
    obtain ⟨n, w⟩ := hd
    intro cum hcum v hv
    simp only [selectLoop] at hv
    split_ifs at hv with hle
    · obtain rfl : n = v := Option.some.injEq .. ▸ hv
      exact ⟨w, by omega, List.mem_cons_self _ _⟩
    · obtain ⟨w', hw', hmem⟩ := ih (cum + w) (by omega) v hv
      exact ⟨w', hw', List.mem_cons_of_mem _ hmem⟩

/-- The loop selects exactly the first variant whose cumulative weight
reaches or exceeds the draw. -/
theorem selectLoop_first (ws : List (String × Nat)) (rand : Nat) :
    ∀ cum, cum < rand → rand ≤ cum + ((ws.map (fun p => p.2)).sum) →
      ∃ i : Fin ws.length, selectLoop ws rand cum = some (ws.get i).1 ∧
        rand ≤ cum + (((ws.take (i.1 + 1)).map (fun p => p.2)).sum) ∧
        ∀ j < i.1, cum + (((ws.take (j + 1)).map (fun p => p.2)).sum) < rand := by
  induction ws with
  | nil =>
    intro cum hcum htot
    simp only [List.map_nil, List.sum_nil] at htot
    omega
  | cons hd tl ih =>
    obtain ⟨n, w⟩ := hd
    intro cum hcum htot
    by_cases hle : rand ≤ cum + w
    · refine ⟨⟨0, by simp⟩, ?_, ?_, ?_⟩
      · simp [selectLoop, hle]
      · simpa using hle
      · intro j hj
        exact absurd (hj : j < 0) (Nat.not_lt_zero j)
    · have htot' : rand ≤ (cum + w) + ((tl.map (fun p => p.2)).sum) := by
        simp only [List.map_cons, List.sum_cons] at htot
        omega
      obtain ⟨i, hsel, hup, hlow⟩ := ih (cum + w) (by omega) htot'
      refine ⟨⟨i.1 + 1, by simp only [List.length_cons]; omega⟩, ?_, ?_, ?_⟩
      · simpa [selectLoop, hle] using hsel
      · simp only [List.take_succ_cons, List.map_cons, List.sum_cons]
        omega
      · intro j hj
        have hj2 : j < i.1 + 1 := hj
        cases j with
        | zero =>
          simp only [List.take_succ_cons, List.take_zero, List.map_cons,
            List.map_nil, List.sum_cons, List.sum_nil]
          omega
        | succ j' =>
          have := hlow j' (by omega)
          simp only [List.take_succ_cons, List.map_cons, List.sum_cons]
          omega

/-- Two entries of an association list with the same key are the same entry
when the keys are pairwise distinct. -/
theorem snd_eq_of_nodup_keys {α β : Type} (l : List (α × β))
    (h : (l.map Prod.fst).Nodup) {a : α} {b b' : β}
    (h1 : (a, b) ∈ l) (h2 : (a, b') ∈ l) : b = b' := by
  induction l with
  | nil => exact absurd h1 (List.not_mem_nil _)
  | cons hd tl ih =>
    simp only [List.map_cons, List.nodup_cons] at h
    rcases List.mem_cons.mp h1 with e1 | m1
    · rcases List.mem_cons.mp h2 with e2 | m2
      · rw [← e1] at e2
        exact (Prod.mk.injEq .. ▸ e2).2.symm
      · exfalso
        exact h.1 (by rw [← e1]; exact List.mem_map.mpr ⟨(a, b'), m2, rfl⟩)
    · rcases List.mem_cons.mp h2 with e2 | m2
      · exfalso
        exact h.1 (by rw [← e2]; exact List.mem_map.mpr ⟨(a, b), m1, rfl⟩)
      · exact ih h.2 m1 m2

/-- C9: for a draw in `[1, totalWeight]`, the weighted selection of
`get_variant` picks exactly the first variant (in the stable insertion
order of the variants mapping) whose cumulative weight reaches or exceeds
the draw; and a variant of weight 0 is never selected, for any draw. -/
theorem get_variant_weighted_selection (variants : List (String × String × Nat))
    (rand : Nat) (h1 : 1 ≤ rand)
    (h2 : rand ≤ ((variants.map (fun v => v.2.2)).sum)) :
    (∃ i : Fin variants.length,
        select_variant variants rand = some (variants.get i).1 ∧
        rand ≤ (((variants.take (i.1 + 1)).map (fun v => v.2.2)).sum) ∧
        ∀ j < i.1, (((variants.take (j + 1)).map (fun v => v.2.2)).sum) < rand) ∧
    (∀ v c, (variants.map (fun x => x.1)).Nodup → (v, c, 0) ∈ variants →
        select_variant variants rand ≠ some v) := by
  constructor
  · have htot : rand ≤ 0 + (((variants.map (fun v => (v.1, v.2.2))).map
        (fun p => p.2)).sum) := by
      simpa [List.map_map, Function.comp] using h2
    obtain ⟨i, hsel, hup, hlow⟩ :=
      selectLoop_first (variants.map (fun v => (v.1, v.2.2))) rand 0 (by omega) htot
    have hilen : i.1 < variants.length := by simpa using i.2
    refine ⟨⟨i.1, hilen⟩, ?_, ?_, ?_⟩
    · rw [select_variant, hsel]
      congr 1
      simp [List.get_eq_getElem, List.getElem_map]
    · simp only [Fin.val_mk]
      have heq : ((((variants.map (fun v => (v.1, v.2.2))).take (i.1 + 1)).map
          (fun p => p.2)).sum) = (((variants.take (i.1 + 1)).map
          (fun v => v.2.2)).sum) := by
        rw [← List.map_take, List.map_map]
        rfl
      omega
    · simp only [Fin.val_mk]
      intro j hj
      have := hlow j hj
      have heq : ((((variants.map (fun v => (v.1, v.2.2))).take (j + 1)).map
          (fun p => p.2)).sum) = (((variants.take (j + 1)).map
          (fun v => v.2.2)).sum) := by
        rw [← List.map_take, List.map_map]
        rfl
      omega
  · intro v c hnodup hmem hsel
    have hsel2 : selectLoop (variants.map (fun v => (v.1, v.2.2))) rand 0
        = some v := hsel
    obtain ⟨w', hw', hmem'⟩ :=
      selectLoop_mem_pos (variants.map (fun v => (v.1, v.2.2))) rand 0 (by omega)
        v hsel2
    have hmem0 : (v, (0 : Nat)) ∈ variants.map (fun v => (v.1, v.2.2)) :=
      List.mem_map.mpr ⟨(v, c, 0), hmem, rfl⟩
    have hkeys : ((variants.map (fun v => (v.1, v.2.2))).map Prod.fst).Nodup := by
      simpa [List.map_map, Function.comp] using hnodup
    have : (0 : Nat) = w' := snd_eq_of_nodup_keys _ hkeys hmem0 hmem'
    omega

/-- C9 witness: the 70/30 example at draw 71 (which selects the second
variant). -/
theorem get_variant_weighted_selection_wit :
    (∃ i : Fin ([("a", "ca", 70), ("b", "cb", 30)] :
          List (String × String × Nat)).length,
        select_variant [("a", "ca", 70), ("b", "cb", 30)] 71
          = some (([("a", "ca", 70), ("b", "cb", 30)] :
            List (String × String × Nat)).get i).1 ∧
        71 ≤ (((([("a", "ca", 70), ("b", "cb", 30)] :
            List (String × String × Nat)).take (i.1 + 1)).map
            (fun v => v.2.2)).sum) ∧
        ∀ j < i.1, (((([("a", "ca", 70), ("b", "cb", 30)] :
            List (String × String × Nat)).take (j + 1)).map
            (fun v => v.2.2)).sum) < 71) ∧
    (∀ v c, (([("a", "ca", 70), ("b", "cb", 30)] :
          List (String × String × Nat)).map (fun x => x.1)).Nodup →
        (v, c, 0) ∈ ([("a", "ca", 70), ("b", "cb", 30)] :
          List (String × String × Nat)) →
        select_variant [("a", "ca", 70), ("b", "cb", 30)] 71 ≠ some v) := by
  exact get_variant_weighted_selection [("a", "ca", 70), ("b", "cb", 30)] 71
    (by decide) (by decide)

/-- Maximum success rate over grouped rows, folded over a seed value. -/
def maxRate (l : List (String × Nat × Nat × ℚ)) (r : ℚ) : ℚ :=
  l.foldr (fun g acc => max g.2.2.2 acc) r

theorem le_maxRate (l : List (String × Nat × Nat × ℚ)) (r : ℚ) :
    r ≤ maxRate l r := by
  induction l with
  | nil => exact le_refl r
  | cons hd tl ih => exact le_trans ih (le_max_right _ _)

theorem rate_le_maxRate (l : List (String × Nat × Nat × ℚ)) (r : ℚ)
    (g : String × Nat × Nat × ℚ) (hg : g ∈ l) : g.2.2.2 ≤ maxRate l r := by
  induction l with
  | nil => cases hg
  | cons hd tl ih =>
    rcases List.mem_cons.mp hg with h | h
    · subst h; exact le_max_left _ _
    · exact le_trans (ih h) (le_max_right _ _)

theorem maxRate_le (l : List (String × Nat × Nat × ℚ)) (r c : ℚ) (hr : r ≤ c)
    (hall : ∀ g ∈ l, g.2.2.2 ≤ c) : maxRate l r ≤ c := by
  induction l with
  | nil => exact hr
  | cons hd tl ih =>
    exact max_le (hall hd (List.mem_cons_self _ _))
      (ih (fun g hg => hall g (List.mem_cons_of_mem _ hg)))

theorem maxRate_seed_max (l : List (String × Nat × Nat × ℚ)) (a b : ℚ) :
    maxRate l (max a b) = max a (maxRate l b) := by
  induction l with
  | nil => rfl
  | cons hd tl ih =>
    show max hd.2.2.2 (maxRate tl (max a b)) = max a (max hd.2.2.2 (maxRate tl b))
    rw [ih, max_left_comm]

/-- When no rate beats the running maximum, the loop keeps the incumbent. -/
theorem bestLoop_const (l : List (String × Nat × Nat × ℚ)) :
    ∀ b r, (∀ g ∈ l, g.2.2.2 ≤ r) → bestLoop l b r = (b, r) := by
  induction l with
  | nil => intro b r _; rfl
  | cons hd tl ih =>
    intro b r hall
    show (if r < hd.2.2.2 then bestLoop tl (some hd.1) hd.2.2.2
          else bestLoop tl b r) = (b, r)
    rw [if_neg (not_lt.mpr (hall hd (List.mem_cons_self _ _)))]
    exact ih b r (fun g hg => hall g (List.mem_cons_of_mem _ hg))

/-- When some rate beats the seed, the loop ends at the first row attaining
the maximum rate, whatever the incumbent. -/
theorem bestLoop_max (l : List (String × Nat × Nat × ℚ)) :
    ∀ b r, (∃ g ∈ l, r < g.2.2.2) →
      ∃ g, l.find? (fun x => x.2.2.2 == maxRate l r) = some g ∧
        bestLoop l b r = (some g.1, maxRate l r) ∧ g.2.2.2 = maxRate l r := by
  induction l with
  | nil =>
    rintro b r ⟨g, hg, _⟩
    cases hg
  | cons hd tl ih =>
    rintro b r ⟨g0, hg0, hr0⟩
    by_cases hlt : r < hd.2.2.2
    · by_cases hex : ∃ g ∈ tl, hd.2.2.2 < g.2.2.2
      · obtain ⟨g, hfind, hbl, hrate⟩ := ih (some hd.1) hd.2.2.2 hex
        have hM : maxRate tl hd.2.2.2 = maxRate (hd :: tl) r := by
          show _ = max hd.2.2.2 (maxRate tl r)
          rw [← maxRate_seed_max tl hd.2.2.2 r]
          congr 1
          exact (max_eq_left hlt.le).symm
        have hlt2 : hd.2.2.2 < maxRate (hd :: tl) r := by
          obtain ⟨g1, hg1, hg1r⟩ := hex
          rw [← hM]
          exact lt_of_lt_of_le hg1r (rate_le_maxRate tl _ g1 hg1)
        have hne : ¬((hd.2.2.2 == maxRate (hd :: tl) r) = true) := by
          rw [beq_iff_eq]
          exact ne_of_lt hlt2
        refine ⟨g, ?_, ?_, ?_⟩
        · rw [List.find?_cons_of_neg _ (by simpa using hne), ← hM]
          exact hfind
        · show (if r < hd.2.2.2 then bestLoop tl (some hd.1) hd.2.2.2
              else bestLoop tl b r) = _
          rw [if_pos hlt, hbl, hM]
        · rw [← hM]
          exact hrate
      · push_neg at hex
        have hbl := bestLoop_const tl (some hd.1) hd.2.2.2 hex
        have hM : maxRate (hd :: tl) r = hd.2.2.2 := by
          show max hd.2.2.2 (maxRate tl r) = hd.2.2.2
          exact max_eq_left (maxRate_le tl r hd.2.2.2 hlt.le hex)
        refine ⟨hd, ?_, ?_, ?_⟩
        · exact List.find?_cons_of_pos _ (by rw [beq_iff_eq, hM])
        · show (if r < hd.2.2.2 then bestLoop tl (some hd.1) hd.2.2.2
              else bestLoop tl b r) = _
          rw [if_pos hlt, hbl, hM]
        · rw [hM]
    · have hg0tl : g0 ∈ tl := by
        rcases List.mem_cons.mp hg0 with h | h
        · rw [h] at hr0
          exact absurd hr0 hlt
        · exact h
      obtain ⟨g, hfind, hbl, hrate⟩ := ih b r ⟨g0, hg0tl, hr0⟩
      have hM : maxRate (hd :: tl) r = maxRate tl r := by
        show max hd.2.2.2 (maxRate tl r) = _
        exact max_eq_right (le_trans (not_lt.mp hlt) (le_maxRate tl r))
      have hne : ¬((hd.2.2.2 == maxRate (hd :: tl) r) = true) := by
        rw [beq_iff_eq, hM]
        exact ne_of_lt (lt_of_le_of_lt (not_lt.mp hlt)
          (lt_of_lt_of_le hr0 (rate_le_maxRate tl r g0 hg0tl)))
      refine ⟨g, ?_, ?_, ?_⟩
      · rw [List.find?_cons_of_neg _ (by simpa using hne), hM]
        exact hfind
      · show (if r < hd.2.2.2 then bestLoop tl (some hd.1) hd.2.2.2
            else bestLoop tl b r) = _
        rw [if_neg hlt, hbl, hM]
      · rw [hM]
        exact hrate

/-- C4 (amended): for a running experiment, the results query returns one
entry per variant (grouped rows in a fixed stable order) carrying its
trials, successes and rounded success rate, reports total trials as the sum
of the per-variant trials, and designates as winner the first variant whose
success rate attains the maximum rate, provided some rate is positive;
when every rate is zero (in particular when outcomes exist but all are
failures) no winner is designated. -/
theorem get_experiment_results_spec (st : RegistryState) (pn : String)
    (row : ExperimentRow)
    (hfind : st.experiments.find?
      (fun r => r.prompt_name == pn && r.status == "running") = some row) :
    (get_experiment_results st pn
      = .results
          ((groupRows st.outcomes row.name).map
            (fun g => (g.1, VariantStats.mk g.2.2.1 g.2.1 (round4 g.2.2.2))))
          (bestLoop (groupRows st.outcomes row.name) none 0).1
          (((groupRows st.outcomes row.name).map (fun g => g.2.2.1)).sum)) ∧
    ((∀ g ∈ groupRows st.outcomes row.name, g.2.2.2 ≤ 0) →
      (bestLoop (groupRows st.outcomes row.name) none 0).1 = none) ∧
    ((∃ g ∈ groupRows st.outcomes row.name, 0 < g.2.2.2) →
      ∃ g, (groupRows st.outcomes row.name).find?
            (fun x => x.2.2.2 == maxRate (groupRows st.outcomes row.name) 0)
            = some g ∧
        (bestLoop (groupRows st.outcomes row.name) none 0).1 = some g.1 ∧
        g.2.2.2 = maxRate (groupRows st.outcomes row.name) 0 ∧
        ∀ g2 ∈ groupRows st.outcomes row.name, g2.2.2.2 ≤ g.2.2.2) := by
  refine ⟨?_, ?_, ?_⟩
  · simp only [get_experiment_results, hfind]
    rw [List.map_map]
    rfl
  · intro hall
    rw [bestLoop_const (groupRows st.outcomes row.name) none 0 hall]
  · intro hex
    obtain ⟨g, hfind2, hbl, hrate⟩ :=
      bestLoop_max (groupRows st.outcomes row.name) none 0 hex
    refine ⟨g, hfind2, by rw [hbl], hrate, ?_⟩
    intro g2 hg2
    rw [hrate]
    exact rate_le_maxRate _ 0 g2 hg2

/-- C4 witness: two variants, one with a success; the theorem applies and
describes the returned dictionary. -/
theorem get_experiment_results_spec_wit :
    get_experiment_results
        ⟨[⟨"p-experiment", "p", [("a", "ca", 50), ("b", "cb", 50)], "success",
           "running"⟩],
         [⟨"p-experiment", "a", 0, none⟩, ⟨"p-experiment", "b", 1, none⟩]⟩ "p"
      = .results
          ((groupRows [⟨"p-experiment", "a", 0, none⟩,
              ⟨"p-experiment", "b", 1, none⟩] "p-experiment").map
            (fun g => (g.1, VariantStats.mk g.2.2.1 g.2.1 (round4 g.2.2.2))))
          (bestLoop (groupRows [⟨"p-experiment", "a", 0, none⟩,
              ⟨"p-experiment", "b", 1, none⟩] "p-experiment") none 0).1
          (((groupRows [⟨"p-experiment", "a", 0, none⟩,
              ⟨"p-experiment", "b", 1, none⟩] "p-experiment").map
            (fun g => g.2.2.1)).sum) := by
  exact (get_experiment_results_spec
    ⟨[⟨"p-experiment", "p", [("a", "ca", 50), ("b", "cb", 50)], "success",
       "running"⟩],
     [⟨"p-experiment", "a", 0, none⟩, ⟨"p-experiment", "b", 1, none⟩]⟩ "p"
    ⟨"p-experiment", "p", [("a", "ca", 50), ("b", "cb", 50)], "success",
     "running"⟩ rfl).1

open MeasureTheory

/-- The Gauss error function used by `math.erf` in `_normal_cdf`
(experiment.py line 84), embedded with exact real semantics. -/
noncomputable def erf (x : ℝ) : ℝ :=
  (2 / Real.sqrt Real.pi) * ∫ t in (0:ℝ)..x, Real.exp (-(t ^ 2))

theorem erf_zero : erf 0 = 0 := by
  unfold erf
  rw [intervalIntegral.integral_same, mul_zero]

theorem erf_nonneg {x : ℝ} (hx : 0 ≤ x) : 0 ≤ erf x := by
  unfold erf
  apply mul_nonneg
  · positivity
  · exact intervalIntegral.integral_nonneg hx (fun u _ => (Real.exp_pos _).le)

theorem erf_le_one {x : ℝ} (hx : 0 ≤ x) : erf x ≤ 1 := by
  have hint : IntegrableOn (fun t : ℝ => Real.exp (-(t ^ 2))) (Set.Ioi 0) := by
    have h1 := (integrable_exp_neg_mul_sq (b := 1) one_pos).integrableOn
      (s := Set.Ioi (0:ℝ))
    simpa using h1
  have hIoi : ∫ t in Set.Ioi (0:ℝ), Real.exp (-(t ^ 2))
      = Real.sqrt Real.pi / 2 := by
    have h2 := integral_gaussian_Ioi 1
    simpa using h2
  have hle : (∫ t in (0:ℝ)..x, Real.exp (-(t ^ 2))) ≤ Real.sqrt Real.pi / 2 := by
    rw [intervalIntegral.integral_of_le hx, ← hIoi]
    apply setIntegral_mono_set hint
    · filter_upwards with t using (Real.exp_pos _).le
    · exact (Set.Ioc_subset_Ioi_self).eventuallyLE
  have hpi : 0 < Real.sqrt Real.pi := Real.sqrt_pos.mpr Real.pi_pos
  calc erf x ≤ (2 / Real.sqrt Real.pi) * (Real.sqrt Real.pi / 2) := by
        unfold erf
        apply mul_le_mul_of_nonneg_left hle (by positivity)
    _ = 1 := by field_simp

/-- `_normal_cdf` (experiment.py lines 81-84):
`0.5 * (1 + erf(x / sqrt(2)))`. -/
noncomputable def normal_cdf (x : ℝ) : ℝ := 0.5 * (1 + erf (x / Real.sqrt 2))

theorem normal_cdf_zero : normal_cdf 0 = 1/2 := by
  unfold normal_cdf
  rw [zero_div, erf_zero]
  norm_num

theorem normal_cdf_bounds {x : ℝ} (hx : 0 ≤ x) :
    1/2 ≤ normal_cdf x ∧ normal_cdf x ≤ 1 := by
  have h0 : 0 ≤ erf (x / Real.sqrt 2) :=
    erf_nonneg (div_nonneg hx (Real.sqrt_nonneg _))
  have h1 : erf (x / Real.sqrt 2) ≤ 1 :=
    erf_le_one (div_nonneg hx (Real.sqrt_nonneg _))
  unfold normal_cdf
  constructor <;> nlinarith

/-- `p_a = a_successes / a_trials` (experiment.py line 52): Python true
division of two ints, exact over the reals. -/
noncomputable def p_rate (successes trials : ℕ) : ℝ := (successes : ℝ) / (trials : ℝ)

/-- The pooled proportion (experiment.py line 56). -/
noncomputable def p_pool (a_t a_s b_t b_s : ℕ) : ℝ :=
  ((a_s : ℝ) + (b_s : ℝ)) / ((a_t : ℝ) + (b_t : ℝ))

/-- The standard error (experiment.py line 59). -/
noncomputable def se_val (a_t a_s b_t b_s : ℕ) : ℝ :=
  Real.sqrt (p_pool a_t a_s b_t b_s * (1 - p_pool a_t a_s b_t b_s) *
    (1 / (a_t : ℝ) + 1 / (b_t : ℝ)))

/-- The z-score (experiment.py line 65). -/
noncomputable def z_val (a_t a_s b_t b_s : ℕ) : ℝ :=
  (p_rate a_s a_t - p_rate b_s b_t) / se_val a_t a_s b_t b_s

/-- The two-tailed p-value (experiment.py line 69). -/
noncomputable def p_value_of (a_t a_s b_t b_s : ℕ) : ℝ :=
  2 * (1 - normal_cdf |z_val a_t a_s b_t b_s|)

/-- `confidence = 1 - p_value` (experiment.py line 71). -/
noncomputable def confidence_val (a_t a_s b_t b_s : ℕ) : ℝ :=
  1 - p_value_of a_t a_s b_t b_s

/-- `calculate_significance` (experiment.py lines 30-78).  The two guard
returns (`trials < 30`, `se == 0`) return `(False, 0.0, None)`; otherwise
the returned flag is `confidence >= confidence_level`, the confidence is
`1 - p_value`, and the winner — set only under the same significance
condition — is `"a"` when `p_a > p_b` else `"b"`. -/
noncomputable def calculate_significance (a_trials a_successes b_trials b_successes : ℕ)
    (confidence_level : ℝ) : Bool × ℝ × Option String :=
  if a_trials < 30 ∨ b_trials < 30 then (false, 0.0, none)
  else if se_val a_trials a_successes b_trials b_successes = 0 then (false, 0.0, none)
  else
    (if confidence_level ≤ confidence_val a_trials a_successes b_trials b_successes
       then true else false,
     confidence_val a_trials a_successes b_trials b_successes,
     if confidence_level ≤ confidence_val a_trials a_successes b_trials b_successes
       then (if p_rate b_successes b_trials < p_rate a_successes a_trials
         then some "a" else some "b")
       else none)

theorem conf_bounds (a_t a_s b_t b_s : ℕ) :
    0 ≤ confidence_val a_t a_s b_t b_s ∧ confidence_val a_t a_s b_t b_s ≤ 1 := by
  obtain ⟨h1, h2⟩ := normal_cdf_bounds (abs_nonneg (z_val a_t a_s b_t b_s))
  unfold confidence_val p_value_of
  constructor <;> linarith

/-- A positive confidence forces distinct raw rates: equal rates give a
zero z-score, whose confidence is exactly 0. -/
theorem rates_ne_of_conf_pos (a_t a_s b_t b_s : ℕ)
    (h : 0 < confidence_val a_t a_s b_t b_s) :
    p_rate a_s a_t ≠ p_rate b_s b_t := by
  intro heq
  have hz : z_val a_t a_s b_t b_s = 0 := by
    unfold z_val
    rw [heq, sub_self, zero_div]
  have hc : confidence_val a_t a_s b_t b_s = 0 := by
    unfold confidence_val p_value_of
    rw [hz, abs_zero, normal_cdf_zero]
    ring
  rw [hc] at h
  exact lt_irrefl 0 h

/-- C6: whenever either trial count is below 30, `calculate_significance`
returns exactly `(False, 0.0, None)` without attempting inference; in
particular `calculate_significance(29, x, 1000, y)` does so for every x, y. -/
theorem significance_below_threshold (a_t a_s b_t b_s : ℕ) (cl : ℝ)
    (h : a_t < 30 ∨ b_t < 30) :
    calculate_significance a_t a_s b_t b_s cl = (false, 0, none) := by
  unfold calculate_significance
  rw [if_pos h]
  norm_num

/-- C6 witness: the claimed instance at `(29, 7, 1000, 300)` under the
default confidence level. -/
theorem significance_below_threshold_wit :
    calculate_significance 29 7 1000 300 0.95 = (false, 0, none) :=
  significance_below_threshold 29 7 1000 300 0.95 (Or.inl (by norm_num))

/-- C7: for every input the returned confidence lies in `[0, 1]`, the
winner is non-none only when the significance flag is true, and the winner
is whichever of a/b has the strictly higher raw success rate. -/
theorem significance_valid_bounds (a_t a_s b_t b_s : ℕ) (cl : ℝ) (hcl : 0 < cl) :
    (0 ≤ (calculate_significance a_t a_s b_t b_s cl).2.1 ∧
      (calculate_significance a_t a_s b_t b_s cl).2.1 ≤ 1) ∧
    ((calculate_significance a_t a_s b_t b_s cl).2.2 ≠ none →
      (calculate_significance a_t a_s b_t b_s cl).1 = true) ∧
    ((calculate_significance a_t a_s b_t b_s cl).2.2 = some "a" →
      p_rate b_s b_t < p_rate a_s a_t) ∧
    ((calculate_significance a_t a_s b_t b_s cl).2.2 = some "b" →
      p_rate a_s a_t < p_rate b_s b_t) := by
  unfold calculate_significance
  split_ifs with h1 h2 h3 h4
  · norm_num
  · norm_num
  · obtain ⟨hb1, hb2⟩ := conf_bounds a_t a_s b_t b_s
    refine ⟨⟨hb1, hb2⟩, fun _ => rfl, fun _ => h4, fun hc => ?_⟩
    simp at hc
  · obtain ⟨hb1, hb2⟩ := conf_bounds a_t a_s b_t b_s
    have hne := rates_ne_of_conf_pos a_t a_s b_t b_s (lt_of_lt_of_le hcl h3)
    refine ⟨⟨hb1, hb2⟩, fun _ => rfl, fun hc => ?_, fun _ => ?_⟩
    · simp at hc
    · exact lt_of_le_of_ne (not_lt.mp h4) hne
  · obtain ⟨hb1, hb2⟩ := conf_bounds a_t a_s b_t b_s
    exact ⟨⟨hb1, hb2⟩, by simp, by simp, by simp⟩

/-- C7 witness: the theorem applied at `(30, 10, 30, 20)` with the default
confidence level. -/
theorem significance_valid_bounds_wit :
    (0 ≤ (calculate_significance 30 10 30 20 0.95).2.1 ∧
      (calculate_significance 30 10 30 20 0.95).2.1 ≤ 1) ∧
    ((calculate_significance 30 10 30 20 0.95).2.2 ≠ none →
      (calculate_significance 30 10 30 20 0.95).1 = true) ∧
    ((calculate_significance 30 10 30 20 0.95).2.2 = some "a" →
      p_rate 20 30 < p_rate 10 30) ∧
    ((calculate_significance 30 10 30 20 0.95).2.2 = some "b" →
      p_rate 10 30 < p_rate 20 30) :=
  significance_valid_bounds 30 10 30 20 0.95 (by norm_num)

theorem se_symm (a_t a_s b_t b_s : ℕ) :
    se_val b_t b_s a_t a_s = se_val a_t a_s b_t b_s := by
  unfold se_val p_pool
  congr 1
  ring

theorem z_symm (a_t a_s b_t b_s : ℕ) :
    z_val b_t b_s a_t a_s = -(z_val a_t a_s b_t b_s) := by
  unfold z_val
  rw [se_symm, ← neg_div, neg_sub]

theorem conf_symm (a_t a_s b_t b_s : ℕ) :
    confidence_val b_t b_s a_t a_s = confidence_val a_t a_s b_t b_s := by
  unfold confidence_val p_value_of
  rw [z_symm, abs_neg]

/-- C8: swapping the two variants leaves the significance flag and the
confidence unchanged and swaps the winner (`"a"` with `"b"`, `None` with
`None`). -/
theorem significance_symm (a_t a_s b_t b_s : ℕ) (cl : ℝ) (hcl : 0 < cl) :
    (calculate_significance a_t a_s b_t b_s cl).1
        = (calculate_significance b_t b_s a_t a_s cl).1 ∧
    (calculate_significance a_t a_s b_t b_s cl).2.1
        = (calculate_significance b_t b_s a_t a_s cl).2.1 ∧
    (calculate_significance a_t a_s b_t b_s cl).2.2
        = ((calculate_significance b_t b_s a_t a_s cl).2.2).map
            (fun s => if s = "a" then "b" else "a") := by
  by_cases h1 : a_t < 30 ∨ b_t < 30
  · have h1s : b_t < 30 ∨ a_t < 30 := h1.symm
    simp [calculate_significance, if_pos h1, if_pos h1s]
  · have h1s : ¬(b_t < 30 ∨ a_t < 30) := fun h => h1 h.symm
    by_cases h2 : se_val a_t a_s b_t b_s = 0
    · have h2s : se_val b_t b_s a_t a_s = 0 := by rw [se_symm]; exact h2
      simp [calculate_significance, if_neg h1, if_neg h1s, if_pos h2, if_pos h2s]
    · have h2s : ¬ se_val b_t b_s a_t a_s = 0 := by rw [se_symm]; exact h2
      simp only [calculate_significance, if_neg h1, if_neg h1s, if_neg h2,
        if_neg h2s]
      rw [conf_symm a_t a_s b_t b_s]
      by_cases hsig : cl ≤ confidence_val a_t a_s b_t b_s
      · refine ⟨rfl, rfl, ?_⟩
        have hne := rates_ne_of_conf_pos a_t a_s b_t b_s (lt_of_lt_of_le hcl hsig)
        rw [if_pos hsig, if_pos hsig]
        by_cases hab : p_rate b_s b_t < p_rate a_s a_t
        · rw [if_pos hab, if_neg (lt_asymm hab)]
          simp
        · have hlt : p_rate a_s a_t < p_rate b_s b_t :=
            lt_of_le_of_ne (not_lt.mp hab) hne
          rw [if_neg hab, if_pos hlt]
          simp
      · refine ⟨rfl, rfl, ?_⟩
        rw [if_neg hsig, if_neg hsig]
        rfl

/-- C8 witness: the theorem applied at `(40, 20, 40, 30)` with the default
confidence level. -/
theorem significance_symm_wit :
    (calculate_significance 40 20 40 30 0.95).1
        = (calculate_significance 40 30 40 20 0.95).1 ∧
    (calculate_significance 40 20 40 30 0.95).2.1
        = (calculate_significance 40 30 40 20 0.95).2.1 ∧
    (calculate_significance 40 20 40 30 0.95).2.2
        = ((calculate_significance 40 30 40 20 0.95).2.2).map
            (fun s => if s = "a" then "b" else "a") :=
  significance_symm 40 20 40 30 0.95 (by norm_num)

/-- The value `t = sqrt(-2 * log(1 - p))` of `_inverse_normal_cdf`
(experiment.py line 132). -/
noncomputable def probit_t (p : ℝ) : ℝ := Real.sqrt (-2 * Real.log (1 - p))

/-- The non-recursive branch of `_inverse_normal_cdf` (experiment.py lines
132-138): the Abramowitz-Stegun rational approximation, with the source
coefficients and the source `t*t`, `t*t*t` powers. -/
noncomputable def inverse_normal_cdf_base (p : ℝ) : ℝ :=
  probit_t p -
    (2.515517 + 0.802853 * probit_t p + 0.010328 * probit_t p * probit_t p) /
    (1 + 1.432788 * probit_t p + 0.189269 * probit_t p * probit_t p +
      0.001308 * probit_t p * probit_t p * probit_t p)

/-- `_inverse_normal_cdf` (experiment.py lines 121-138) as a fuel-indexed
function, making the Python recursion depth explicit: with fuel `n + 1` the
body runs once (`p <= 0` gives `-inf`, `p >= 1` gives `inf`, `p < 0.5`
recurses on `1 - p` with fuel `n` and negates, otherwise the rational
approximation); fuel 0 means the recursion budget is exhausted.  Python
floats with infinities are modelled by `EReal`. -/
noncomputable def inverse_normal_cdf_fuel : Nat → ℝ → Option EReal
  | 0, _ => none
  | n + 1, p =>
      if p ≤ 0 then some ⊥
      else if 1 ≤ p then some ⊤
      else if p < 0.5 then (inverse_normal_cdf_fuel n (1 - p)).map (fun x => -x)
      else some ((inverse_normal_cdf_base p : ℝ) : EReal)

theorem fuel_base (n : ℕ) (hn : 1 ≤ n) (q : ℝ) (h0 : ¬ q ≤ 0) (h1 : ¬ 1 ≤ q)
    (h5 : ¬ q < 0.5) :
    inverse_normal_cdf_fuel n q = some ((inverse_normal_cdf_base q : ℝ) : EReal) := by
  obtain ⟨m, rfl⟩ : ∃ m, n = m + 1 := ⟨n - 1, by omega⟩
  simp only [inverse_normal_cdf_fuel, if_neg h0, if_neg h1, if_neg h5]

theorem fuel_stable (p : ℝ) (n : ℕ) (hn : 2 ≤ n) :
    inverse_normal_cdf_fuel n p = inverse_normal_cdf_fuel 2 p := by
  obtain ⟨m, rfl⟩ : ∃ m, n = m + 1 := ⟨n - 1, by omega⟩
  have hm : 1 ≤ m := by omega
  by_cases h0 : p ≤ 0
  · simp only [inverse_normal_cdf_fuel, if_pos h0]
  by_cases h1 : 1 ≤ p
  · simp only [inverse_normal_cdf_fuel, if_neg h0, if_pos h1]
  by_cases h5 : p < 0.5
  · have c0 : ¬ (1 - p ≤ 0) := by push_neg; nlinarith [h5]
    have c1 : ¬ (1 ≤ 1 - p) := by push_neg; push_neg at h0; linarith
    have c5 : ¬ (1 - p < 0.5) := by push_neg; norm_num at h5 ⊢; linarith
    simp only [inverse_normal_cdf_fuel, if_neg h0, if_neg h1, if_pos h5]
    rw [fuel_base m hm (1 - p) c0 c1 c5, if_neg c0, if_neg c1, if_neg c5]
  · rw [fuel_base (m + 1) (by omega) p h0 h1 h5,
      fuel_base 2 (by norm_num) p h0 h1 h5]

/-- C10: `_inverse_normal_cdf` is total.  Fuel 2 already computes the final
answer for every real input (more fuel changes nothing, and the result is
always `some`): inputs `p <= 0` give `-inf`, inputs `p >= 1` give `inf`,
and for `p` in `(0, 0.5)` the single nested call receives `1 - p > 0.5` and
takes the non-recursive rational-approximation branch. -/
theorem inverse_normal_cdf_total (p : ℝ) (n : ℕ) (hn : 2 ≤ n) :
    inverse_normal_cdf_fuel n p = inverse_normal_cdf_fuel 2 p ∧
    (inverse_normal_cdf_fuel 2 p).isSome = true ∧
    (p ≤ 0 → inverse_normal_cdf_fuel 2 p = some ⊥) ∧
    (1 ≤ p → inverse_normal_cdf_fuel 2 p = some ⊤) ∧
    (0 < p → p < 0.5 →
      (0.5 < 1 - p ∧
       inverse_normal_cdf_fuel 2 p
         = (inverse_normal_cdf_fuel 1 (1 - p)).map (fun x => -x) ∧
       inverse_normal_cdf_fuel 1 (1 - p)
         = some ((inverse_normal_cdf_base (1 - p) : ℝ) : EReal))) ∧
    (0.5 ≤ p → p < 1 →
      inverse_normal_cdf_fuel 2 p
        = some ((inverse_normal_cdf_base p : ℝ) : EReal)) := by
  refine ⟨fuel_stable p n hn, ?_, ?_, ?_, ?_, ?_⟩
  · by_cases h0 : p ≤ 0
    · simp only [inverse_normal_cdf_fuel, if_pos h0, Option.isSome_some]
    by_cases h1 : 1 ≤ p
    · simp only [inverse_normal_cdf_fuel, if_neg h0, if_pos h1, Option.isSome_some]
    by_cases h5 : p < 0.5
    · have c0 : ¬ (1 - p ≤ 0) := by push_neg; nlinarith [h5]
      have c1 : ¬ (1 ≤ 1 - p) := by push_neg; push_neg at h0; linarith
      have c5 : ¬ (1 - p < 0.5) := by push_neg; norm_num at h5 ⊢; linarith
      simp only [inverse_normal_cdf_fuel, if_neg h0, if_neg h1, if_pos h5]
      rw [if_neg c0, if_neg c1, if_neg c5]
      simp
    · rw [fuel_base 2 (by norm_num) p h0 h1 h5]
      simp
  · intro h0
    simp only [inverse_normal_cdf_fuel, if_pos h0]
  · intro h1
    by_cases h0 : p ≤ 0
    · exfalso
      linarith
    simp only [inverse_normal_cdf_fuel, if_neg h0, if_pos h1]
  · intro hp0 hp5
    have h0 : ¬ p ≤ 0 := not_le.mpr hp0
    have h1 : ¬ 1 ≤ p := by push_neg; norm_num at hp5; linarith
    have c0 : ¬ (1 - p ≤ 0) := by push_neg; nlinarith [hp5]
    have c1 : ¬ (1 ≤ 1 - p) := by push_neg; linarith
    have c5 : ¬ (1 - p < 0.5) := by push_neg; norm_num at hp5 ⊢; linarith
    refine ⟨by norm_num at hp5 ⊢; linarith, ?_, ?_⟩
    · simp only [inverse_normal_cdf_fuel, if_neg h0, if_neg h1, if_pos hp5]
    · simp only [inverse_normal_cdf_fuel, if_neg c0, if_neg c1, if_neg c5]
  · intro hp5 hp1
    have h0 : ¬ p ≤ 0 := by push_neg; norm_num at hp5; linarith
    have h1 : ¬ 1 ≤ p := not_le.mpr hp1
    have h5 : ¬ p < 0.5 := not_lt.mpr hp5
    exact fuel_base 2 (by norm_num) p h0 h1 h5

/-- C10 witness: fuel 2 already yields a value at `p = 1/4`. -/
theorem inverse_normal_cdf_total_wit :
    (inverse_normal_cdf_fuel 2 (1/4 : ℝ)).isSome = true :=
  (inverse_normal_cdf_total (1/4) 3 (by norm_num)).2.1
